import Mathlib

/-!
Shallow embedding of `PosteriorSampling.py` (InvUQ repository).

Numeric values are modelled as rationals (`ℚ`).  Matrices are lists of rows
(`List (List ℚ)`); a column is extracted exactly as numpy's `M[:,j]` does,
and out-of-range reads use `List.getD` with default `0` (the claims under
study only evaluate in-range reads, which the shape hypotheses guarantee).

The process-wide numpy random generator is made explicit: an `RNG` is an
infinite stream of raw natural-number draws together with a cursor.  Each
call `np.random.choice(n, 1)` consumes exactly one raw draw and yields an
index in `[0, n)`, modelled as the raw draw taken modulo `n`.

The Python test `csamples.shape[0] is 0` (identity comparison against the
cached small integer `0`) behaves as an equality test with `0` in CPython,
and is embedded as `= 0`.
-/

namespace InvUQ

/-- Explicit random source: a stream of raw draws and a position cursor. -/
structure RNG where
  draws : Nat → Nat
  pos : Nat

/-- One draw of `np.random.choice(n, 1)`: an index in `[0, n)` plus the
advanced generator state. -/
def RNG.next (g : RNG) (n : Nat) : Nat × RNG :=
  (g.draws g.pos % n, ⟨g.draws, g.pos + 1⟩)

/-- The candidate index set of `sample_ecdf`, line 22:
`np.where(np.logical_and(p_pred_test >= v - W, p_pred_test <= v + W))`. -/
def windowInds (v W : ℚ) (p_pred_test : List ℚ) : List Nat :=
  (List.range p_pred_test.length).filter
    (fun i => decide (v - W ≤ p_pred_test.getD i 0) &&
      decide (p_pred_test.getD i 0 ≤ v + W))

/-- The body of `sample_ecdf`'s loop for one observed realization `v`
(lines 22-33): gather `csamples = p_true_test[INDS]`; if empty, fall back
to a uniform draw over the whole truth column, otherwise draw uniformly
from `csamples`. -/
def sample_ecdf_step (v : ℚ) (p_pred_test p_true_test : List ℚ) (W : ℚ)
    (g : RNG) : ℚ × RNG :=
  let csamples := (windowInds v W p_pred_test).map
    (fun i => p_true_test.getD i 0)
  if csamples.length = 0 then
    (p_true_test.getD (g.next p_true_test.length).1 0,
      (g.next p_true_test.length).2)
  else
    (csamples.getD (g.next csamples.length).1 0, (g.next csamples.length).2)

/-- `sample_ecdf` (lines 20-35): loop over the observed realizations,
threading the random generator through the per-realization steps. -/
def sample_ecdf (p_pred_obs p_pred_test p_true_test : List ℚ) (W : ℚ)
    (g : RNG) : List ℚ × RNG :=
  match p_pred_obs with
  | [] => ([], g)
  | v :: vs =>
    let s := sample_ecdf_step v p_pred_test p_true_test W g
    let rest := sample_ecdf vs p_pred_test p_true_test W s.2
    (s.1 :: rest.1, rest.2)

/-- `np.min(M, axis=0)` applied to one column (numpy errors on an empty
input; the claims only use it on non-empty columns). -/
def npMin : List ℚ → ℚ
  | [] => 0
  | x :: xs => xs.foldl min x

/-- `np.max(M, axis=0)` applied to one column. -/
def npMax : List ℚ → ℚ
  | [] => 0
  | x :: xs => xs.foldl max x

/-- Column `j` of a row-major matrix, as in numpy's `M[:,j]`. -/
def getCol (M : List (List ℚ)) (j : Nat) : List ℚ :=
  M.map (fun row => row.getD j 0)

/-- The column count `M.shape[1]` of a row-major matrix. -/
def numCols (M : List (List ℚ)) : Nat := (M.headD []).length

/-- `rangefraction = 1/20` (line 52). -/
def rangefraction : ℚ := 1 / 20

/-- `compute_default_tol` (lines 37-59): per-column
`rangefraction * (pmax - pmin)`. -/
def compute_default_tol (p_pred_test : List (List ℚ)) : List ℚ :=
  (List.range (numCols p_pred_test)).map
    (fun j => rangefraction *
      (npMax (getCol p_pred_test j) - npMin (getCol p_pred_test j)))

/-- Write column `j`: `postsamples[:,j] = c`. -/
def setCol (M : List (List ℚ)) (j : Nat) (c : List ℚ) : List (List ℚ) :=
  List.zipWith (fun row x => row.set j x) M c

/-- The loop of `EmpiricalPosteriorSampling` (lines 86-88) over the column
indices `inds`, writing each sampled column into the accumulator. -/
def ecdfLoop (obs pred tru : List (List ℚ)) (Ws : List ℚ) :
    List Nat → List (List ℚ) → RNG → List (List ℚ) × RNG
  | [], acc, g => (acc, g)
  | i :: rest, acc, g =>
    let c := sample_ecdf (getCol obs i) (getCol pred i) (getCol tru i)
      (Ws.getD i 0) g
    ecdfLoop obs pred tru Ws rest (setCol acc i c.1) c.2

/-- `EmpiricalPosteriorSampling` (lines 63-89): default the tolerances if
omitted, preallocate `postsamples = np.zeros(p_pred_obs.shape)`, then
sample each of the first `len(Ws)` columns. -/
def EmpiricalPosteriorSampling (p_pred_obs p_pred_test p_true_test :
    List (List ℚ)) (Wopt : Option (List ℚ)) (g : RNG) :
    List (List ℚ) × RNG :=
  let Ws := match Wopt with
    | none => compute_default_tol p_pred_test
    | some ws => ws
  let postsamples := List.replicate p_pred_obs.length
    (List.replicate (numCols p_pred_obs) (0 : ℚ))
  ecdfLoop p_pred_obs p_pred_test p_true_test Ws (List.range Ws.length)
    postsamples g

/-! ### Basic list lemmas -/

theorem getD_eq_get {α : Type} (l : List α) (d : α) {i : Nat}
    (h : i < l.length) : l.getD i d = l[i] := by
  simp [List.getD_eq_getElem?_getD, List.getElem?_eq_getElem h]

theorem getD_mem {α : Type} (l : List α) (d : α) {i : Nat}
    (h : i < l.length) : l.getD i d ∈ l := by
  rw [getD_eq_get l d h]; exact List.getElem_mem h

theorem mem_windowInds {v W : ℚ} {pred : List ℚ} {i : Nat} :
    i ∈ windowInds v W pred ↔
      i < pred.length ∧ v - W ≤ pred.getD i 0 ∧ pred.getD i 0 ≤ v + W := by
  simp [windowInds, List.mem_filter, List.mem_range, and_assoc]

/-! ### Claims about the per-realization step (`WindowedResampler`) -/

/-- C1: whenever `sample_ecdf`'s per-realization step takes its
non-fallback path, the returned value is `truth[i]` for some index `i`
with `pred[i]` in the closed interval `[v - W, v + W]`. -/
theorem sample_ecdf_step_window_sound (v W : ℚ) (pred tru : List ℚ)
    (g : RNG) (hW : 0 ≤ W) (hlen : pred.length = tru.length)
    (hne : windowInds v W pred ≠ []) :
    ∃ i, i < pred.length ∧ v - W ≤ pred.getD i 0 ∧
      pred.getD i 0 ≤ v + W ∧
      (sample_ecdf_step v pred tru W g).1 = tru.getD i 0 := by
  have hpos : 0 < (windowInds v W pred).length := List.length_pos.mpr hne
  have hjlt : g.draws g.pos % (windowInds v W pred).length <
      (windowInds v W pred).length := Nat.mod_lt _ hpos
  have hmem : (windowInds v W pred)[g.draws g.pos %
      (windowInds v W pred).length] ∈ windowInds v W pred :=
    List.getElem_mem hjlt
  rw [mem_windowInds] at hmem
  refine ⟨(windowInds v W pred)[g.draws g.pos %
    (windowInds v W pred).length], hmem.1, hmem.2.1, hmem.2.2, ?_⟩
  have hmaplen : ((windowInds v W pred).map
      (fun i => tru.getD i 0)).length = (windowInds v W pred).length :=
    List.length_map _ _
  have hne' : ¬ (windowInds v W pred).length = 0 :=
    Nat.pos_iff_ne_zero.mp hpos
  simp only [sample_ecdf_step, RNG.next, List.length_map]
  rw [if_neg hne', getD_eq_get _ _ (by rw [hmaplen]; exact hjlt),
    List.getElem_map]

/-- C1 instantiated at a concrete input. -/
theorem sample_ecdf_step_window_sound_witness :
    (0:ℚ) ≤ 0 ∧ ∃ i, i < [(0:ℚ)].length ∧ (0:ℚ) - 0 ≤ [(0:ℚ)].getD i 0 ∧
      [(0:ℚ)].getD i 0 ≤ 0 + 0 ∧
      (sample_ecdf_step 0 [(0:ℚ)] [(5:ℚ)] 0 ⟨fun _ => 0, 0⟩).1 =
        [(5:ℚ)].getD i 0 :=
  ⟨le_refl 0, sample_ecdf_step_window_sound 0 0 [(0:ℚ)] [(5:ℚ)]
    ⟨fun _ => 0, 0⟩ (le_refl 0) rfl
    (by norm_num [windowInds, List.filter])⟩

/-- C2: when the candidate index set is empty and the truth column is
non-empty, the fallback still returns a value, and that value is a member
of the full truth column. -/
theorem sample_ecdf_step_fallback_mem (v W : ℚ) (pred tru : List ℚ)
    (g : RNG) (htru : tru ≠ []) (hemp : windowInds v W pred = []) :
    (sample_ecdf_step v pred tru W g).1 ∈ tru := by
  simp only [sample_ecdf_step, hemp, List.map_nil, List.length_nil,
    if_pos, RNG.next]
  exact getD_mem _ _ (Nat.mod_lt _ (List.length_pos.mpr htru))

/-- C2 instantiated at a concrete input. -/
theorem sample_ecdf_step_fallback_mem_witness :
    ([(5:ℚ)] ≠ []) ∧
      (sample_ecdf_step 10 [(0:ℚ)] [(5:ℚ)] 0 ⟨fun _ => 0, 0⟩).1 ∈
        [(5:ℚ)] :=
  ⟨by simp, sample_ecdf_step_fallback_mem 10 0 [(0:ℚ)] [(5:ℚ)]
    ⟨fun _ => 0, 0⟩ (by simp) (by norm_num [windowInds, List.filter])⟩

/-- C6: on predicted column `[1,2,3,4,5]`, truth column
`[10,20,30,40,50]`, observed prediction `3` and tolerance `1/2`, the
candidate set is the singleton index of value `3`, and the step returns
`30` for every state of the random source. -/
theorem sample_ecdf_step_singleton_det :
    windowInds 3 (1/2) [(1:ℚ),2,3,4,5] = [2] ∧
    ∀ g : RNG,
      (sample_ecdf_step 3 [(1:ℚ),2,3,4,5] [(10:ℚ),20,30,40,50] (1/2)
        g).1 = 30 := by
  have hw : windowInds 3 (1/2) [(1:ℚ),2,3,4,5] = [2] := by
    norm_num [windowInds, List.filter]
  refine ⟨hw, fun g => ?_⟩
  simp only [sample_ecdf_step, hw, List.map_cons, List.map_nil,
    List.getD_cons_succ, List.getD_cons_zero, List.length_cons,
    List.length_nil, RNG.next]
  norm_num [Nat.mod_one]

/-- C7: widening the tolerance never removes a candidate index. -/
theorem windowInds_tolerance_mono (v W W' : ℚ) (pred : List ℚ)
    (h0 : 0 ≤ W) (hWW : W ≤ W') :
    ∀ i ∈ windowInds v W pred, i ∈ windowInds v W' pred := by
  intro i hi
  rw [mem_windowInds] at hi ⊢
  exact ⟨hi.1, le_trans (by linarith) hi.2.1,
    le_trans hi.2.2 (by linarith)⟩

/-- C7 instantiated at a concrete input. -/
theorem windowInds_tolerance_mono_witness :
    (0:ℚ) ≤ 1 ∧ (1:ℚ) ≤ 2 ∧ 0 ∈ windowInds 0 2 [(0:ℚ)] :=
  ⟨by norm_num, by norm_num,
    windowInds_tolerance_mono 0 1 2 [(0:ℚ)] (by norm_num) (by norm_num) 0
      (by norm_num [windowInds, List.filter])⟩

/-! ### Fold lemmas for `npMin` / `npMax` -/

theorem foldl_min_le_init (l : List ℚ) : ∀ a : ℚ, l.foldl min a ≤ a := by
  induction l with
  | nil => intro a; exact le_refl a
  | cons b l ih =>
    intro a
    calc l.foldl min (min a b) ≤ min a b := ih _
      _ ≤ a := min_le_left _ _

theorem foldl_min_le_mem (l : List ℚ) :
    ∀ (a y : ℚ), y ∈ l → l.foldl min a ≤ y := by
  induction l with
  | nil => intro a y h; cases h
  | cons b l ih =>
    intro a y h
    rcases List.mem_cons.mp h with rfl | h
    · calc l.foldl min (min a y) ≤ min a y := foldl_min_le_init _ _
        _ ≤ y := min_le_right _ _
    · exact ih _ y h

theorem init_le_foldl_max (l : List ℚ) : ∀ a : ℚ, a ≤ l.foldl max a := by
  induction l with
  | nil => intro a; exact le_refl a
  | cons b l ih =>
    intro a
    calc a ≤ max a b := le_max_left _ _
      _ ≤ l.foldl max (max a b) := ih _

theorem mem_le_foldl_max (l : List ℚ) :
    ∀ (a y : ℚ), y ∈ l → y ≤ l.foldl max a := by
  induction l with
  | nil => intro a y h; cases h
  | cons b l ih =>
    intro a y h
    rcases List.mem_cons.mp h with rfl | h
    · calc y ≤ max a y := le_max_right _ _
        _ ≤ l.foldl max (max a y) := init_le_foldl_max _ _
    · exact ih _ y h

theorem foldl_min_const (l : List ℚ) :
    ∀ a : ℚ, (∀ y ∈ l, y = a) → l.foldl min a = a := by
  induction l with
  | nil => intro a _; rfl
  | cons b l ih =>
    intro a h
    have hb : b = a := h b (List.mem_cons_self _ _)
    rw [List.foldl_cons, hb, min_self]
    exact ih a (fun y hy => h y (List.mem_cons_of_mem _ hy))

theorem foldl_max_const (l : List ℚ) :
    ∀ a : ℚ, (∀ y ∈ l, y = a) → l.foldl max a = a := by
  induction l with
  | nil => intro a _; rfl
  | cons b l ih =>
    intro a h
    have hb : b = a := h b (List.mem_cons_self _ _)
    rw [List.foldl_cons, hb, max_self]
    exact ih a (fun y hy => h y (List.mem_cons_of_mem _ hy))

theorem npMin_le (xs : List ℚ) (hx : xs ≠ []) :
    ∀ y ∈ xs, npMin xs ≤ y := by
  cases xs with
  | nil => exact absurd rfl hx
  | cons x l =>
    intro y hy
    rcases List.mem_cons.mp hy with rfl | hy
    · exact foldl_min_le_init l y
    · exact foldl_min_le_mem l x y hy

theorem le_npMax (xs : List ℚ) (hx : xs ≠ []) :
    ∀ y ∈ xs, y ≤ npMax xs := by
  cases xs with
  | nil => exact absurd rfl hx
  | cons x l =>
    intro y hy
    rcases List.mem_cons.mp hy with rfl | hy
    · exact init_le_foldl_max l y
    · exact mem_le_foldl_max l x y hy

theorem npMax_eq_npMin_iff (xs : List ℚ) (hx : xs ≠ []) :
    npMax xs = npMin xs ↔ ∀ y ∈ xs, y = xs.headD 0 := by
  cases xs with
  | nil => exact absurd rfl hx
  | cons x l =>
    constructor
    · intro h y hy
      have h1 : npMin (x :: l) ≤ y := npMin_le _ hx y hy
      have h2 : y ≤ npMax (x :: l) := le_npMax _ hx y hy
      have h3 : npMin (x :: l) ≤ x :=
        npMin_le _ hx x (List.mem_cons_self _ _)
      have h4 : x ≤ npMax (x :: l) :=
        le_npMax _ hx x (List.mem_cons_self _ _)
      rw [h] at h2 h4
      simp only [List.headD_cons]
      linarith
    · intro h
      simp only [List.headD_cons] at h
      have hall : ∀ y ∈ l, y = x :=
        fun y hy => h y (List.mem_cons_of_mem _ hy)
      show l.foldl max x = l.foldl min x
      rw [foldl_max_const l x hall, foldl_min_const l x hall]

theorem getD_map_range (n : Nat) (f : Nat → ℚ) {p : Nat} (hp : p < n) :
    ((List.range n).map f).getD p 0 = f p := by
  have h1 : p < ((List.range n).map f).length := by simpa using hp
  rw [getD_eq_get _ _ h1, List.getElem_map]
  congr 1
  exact List.getElem_range _ _

/-- C3: `compute_default_tol` returns one tolerance per column, each equal
to `(max - min) / 20` over that column, and an entry is `0` exactly when
the column is constant (no clamping to a positive minimum). -/
theorem compute_default_tol_spec (M : List (List ℚ)) (hM : M ≠ []) :
    (compute_default_tol M).length = numCols M ∧
    ∀ p, p < numCols M →
      (compute_default_tol M).getD p 0 =
        (npMax (getCol M p) - npMin (getCol M p)) / 20 ∧
      ((compute_default_tol M).getD p 0 = 0 ↔
        ∀ y ∈ getCol M p, y = (getCol M p).headD 0) := by
  have hlen : (compute_default_tol M).length = numCols M := by
    simp [compute_default_tol]
  refine ⟨hlen, fun p hp => ?_⟩
  have hentry : (compute_default_tol M).getD p 0 =
      rangefraction * (npMax (getCol M p) - npMin (getCol M p)) :=
    getD_map_range _ _ hp
  have hcol : getCol M p ≠ [] := by
    simp only [getCol, ne_eq, List.map_eq_nil_iff]
    exact hM
  constructor
  · rw [hentry, rangefraction]; ring
  · rw [hentry, rangefraction]
    rw [← npMax_eq_npMin_iff (getCol M p) hcol]
    constructor
    · intro h
      have h20 : (1:ℚ)/20 ≠ 0 := by norm_num
      have := mul_eq_zero.mp h
      rcases this with h' | h'
      · exact absurd h' h20
      · linarith [sub_eq_zero.mp h']
    · intro h
      rw [h]; ring

/-- C3 instantiated at a concrete input. -/
theorem compute_default_tol_spec_witness :
    ([[(1:ℚ),3],[2,3]] : List (List ℚ)) ≠ [] ∧
    (compute_default_tol [[(1:ℚ),3],[2,3]]).length =
      numCols [[(1:ℚ),3],[2,3]] :=
  ⟨by simp, (compute_default_tol_spec [[(1:ℚ),3],[2,3]] (by simp)).1⟩

/-- C8: with the random source made explicit, two invocations of
`EmpiricalPosteriorSampling` on identical inputs and identically seeded
random sources return identical results. -/
theorem EmpiricalPosteriorSampling_deterministic
    (obs₁ obs₂ pred₁ pred₂ tru₁ tru₂ : List (List ℚ))
    (W₁ W₂ : Option (List ℚ)) (g₁ g₂ : RNG)
    (hobs : obs₁ = obs₂) (hpred : pred₁ = pred₂) (htru : tru₁ = tru₂)
    (hW : W₁ = W₂) (hseed : g₁.draws = g₂.draws) (hpos : g₁.pos = g₂.pos) :
    EmpiricalPosteriorSampling obs₁ pred₁ tru₁ W₁ g₁ =
      EmpiricalPosteriorSampling obs₂ pred₂ tru₂ W₂ g₂ := by
  have hg : g₁ = g₂ := by
    cases g₁; cases g₂
    simp only at hseed hpos
    rw [hseed, hpos]
  rw [hobs, hpred, htru, hW, hg]

/-- C8 instantiated at a concrete input. -/
theorem EmpiricalPosteriorSampling_deterministic_witness :
    EmpiricalPosteriorSampling [[(1:ℚ)]] [[(1:ℚ)]] [[(2:ℚ)]] none
      ⟨fun _ => 0, 0⟩ =
    EmpiricalPosteriorSampling [[(1:ℚ)]] [[(1:ℚ)]] [[(2:ℚ)]] none
      ⟨fun _ => 0, 0⟩ :=
  EmpiricalPosteriorSampling_deterministic _ _ _ _ _ _ _ _ _ _
    rfl rfl rfl rfl rfl rfl

/-! ### Random-stream threading and matrix shape machinery -/

theorem sample_ecdf_length (vs pred tru : List ℚ) (W : ℚ) :
    ∀ g : RNG, (sample_ecdf vs pred tru W g).1.length = vs.length := by
  induction vs with
  | nil => intro g; rfl
  | cons v vs ih =>
    intro g
    simp only [sample_ecdf, List.length_cons]
    rw [ih]

theorem sample_ecdf_step_rng (v : ℚ) (pred tru : List ℚ) (W : ℚ)
    (g : RNG) :
    (sample_ecdf_step v pred tru W g).2 = ⟨g.draws, g.pos + 1⟩ := by
  simp only [sample_ecdf_step, RNG.next]
  split <;> rfl

theorem sample_ecdf_rng (vs pred tru : List ℚ) (W : ℚ) :
    ∀ g : RNG, (sample_ecdf vs pred tru W g).2 =
      ⟨g.draws, g.pos + vs.length⟩ := by
  induction vs with
  | nil => intro g; rfl
  | cons v vs ih =>
    intro g
    simp only [sample_ecdf]
    rw [ih, sample_ecdf_step_rng]
    simp only [List.length_cons, RNG.mk.injEq, true_and]
    omega

theorem getD_set_ne {α : Type} (l : List α) (d x : α) {i j : Nat}
    (hij : i ≠ j) : (l.set j x).getD i d = l.getD i d := by
  simp [List.getD_eq_getElem?_getD, List.getElem?_set_ne (Ne.symm hij)]

theorem length_setCol (M : List (List ℚ)) (j : Nat) (c : List ℚ)
    (h : c.length = M.length) : (setCol M j c).length = M.length := by
  simp [setCol, List.length_zipWith, h]

theorem setCol_mem_length (M : List (List ℚ)) (j : Nat) :
    ∀ (c : List ℚ) (row : List ℚ), row ∈ setCol M j c →
      ∃ row' ∈ M, row.length = row'.length := by
  induction M with
  | nil => intro c row h; simp [setCol] at h
  | cons r M ih =>
    intro c row h
    cases c with
    | nil => simp [setCol] at h
    | cons x c =>
      rw [setCol, List.zipWith_cons_cons] at h
      rcases List.mem_cons.mp h with rfl | h
      · exact ⟨r, List.mem_cons_self _ _, List.length_set _ _ _⟩
      · obtain ⟨row', hmem, hlen⟩ := ih c row h
        exact ⟨row', List.mem_cons_of_mem _ hmem, hlen⟩

theorem getCol_setCol_ne (M : List (List ℚ)) (i j : Nat) (hij : i ≠ j) :
    ∀ c : List ℚ, c.length = M.length →
      getCol (setCol M j c) i = getCol M i := by
  induction M with
  | nil => intro c _; simp [setCol, getCol]
  | cons r M ih =>
    intro c hlen
    cases c with
    | nil => simp at hlen
    | cons x c =>
      simp only [setCol, List.zipWith_cons_cons, getCol, List.map_cons]
      rw [getD_set_ne _ _ _ hij]
      have := ih c (by simpa using hlen)
      simp only [setCol, getCol] at this
      rw [this]

theorem getCol_setCol_self (M : List (List ℚ)) (j : Nat) :
    ∀ c : List ℚ, c.length = M.length → (∀ row ∈ M, j < row.length) →
      getCol (setCol M j c) j = c := by
  induction M with
  | nil =>
    intro c hlen _
    rw [List.length_nil, List.length_eq_zero] at hlen
    simp [setCol, getCol, hlen]
  | cons r M ih =>
    intro c hlen hrow
    cases c with
    | nil => simp at hlen
    | cons x c =>
      simp only [setCol, List.zipWith_cons_cons, getCol, List.map_cons]
      have hj : j < r.length := hrow r (List.mem_cons_self _ _)
      rw [getD_eq_get _ _ (by rw [List.length_set]; exact hj),
        List.getElem_set_self]
      have := ih c (by simpa using hlen)
        (fun row h => hrow row (List.mem_cons_of_mem _ h))
      simp only [setCol, getCol] at this
      rw [this]

theorem getD_replicate_zero (P j : Nat) :
    (List.replicate P (0:ℚ)).getD j 0 = 0 := by
  by_cases h : j < P
  · rw [getD_eq_get _ _ (by simpa using h)]
    exact List.getElem_replicate _ _
  · rw [List.getD_eq_getElem?_getD,
      List.getElem?_eq_none (by simpa using Nat.le_of_not_lt h)]
    rfl

theorem getCol_replicate (Q P j : Nat) :
    getCol (List.replicate Q (List.replicate P (0:ℚ))) j =
      List.replicate Q 0 := by
  simp [getCol, List.map_replicate, getD_replicate_zero]

theorem ecdfLoop_col_not_mem (obs pred tru : List (List ℚ)) (Ws : List ℚ)
    (i : Nat) :
    ∀ (inds : List Nat) (acc : List (List ℚ)) (g : RNG), i ∉ inds →
      acc.length = obs.length →
      getCol (ecdfLoop obs pred tru Ws inds acc g).1 i = getCol acc i := by
  intro inds
  induction inds with
  | nil => intro acc g _ _; rfl
  | cons j rest ih =>
    intro acc g hni hacc
    have hji : i ≠ j := fun h => hni (h ▸ List.mem_cons_self _ _)
    have hc : (sample_ecdf (getCol obs j) (getCol pred j) (getCol tru j)
        (Ws.getD j 0) g).1.length = obs.length := by
      rw [sample_ecdf_length]; simp [getCol]
    simp only [ecdfLoop]
    rw [ih _ _ (fun h => hni (List.mem_cons_of_mem _ h))
      (by rw [length_setCol _ _ _ (hc.trans hacc.symm)]; exact hacc)]
    exact getCol_setCol_ne _ _ _ hji _ (hc.trans hacc.symm)

theorem ecdfLoop_shape (obs pred tru : List (List ℚ)) (Ws : List ℚ)
    (P : Nat) :
    ∀ (inds : List Nat) (acc : List (List ℚ)) (g : RNG),
      acc.length = obs.length → (∀ row ∈ acc, row.length = P) →
      (ecdfLoop obs pred tru Ws inds acc g).1.length = obs.length ∧
      ∀ row ∈ (ecdfLoop obs pred tru Ws inds acc g).1, row.length = P := by
  intro inds
  induction inds with
  | nil => intro acc g h1 h2; exact ⟨h1, h2⟩
  | cons j rest ih =>
    intro acc g h1 h2
    have hc : (sample_ecdf (getCol obs j) (getCol pred j) (getCol tru j)
        (Ws.getD j 0) g).1.length = obs.length := by
      rw [sample_ecdf_length]; simp [getCol]
    simp only [ecdfLoop]
    apply ih
    · rw [length_setCol _ _ _ (hc.trans h1.symm)]; exact h1
    · intro row hrow
      obtain ⟨row', hmem, hlen⟩ := setCol_mem_length _ _ _ row hrow
      rw [hlen]; exact h2 row' hmem

theorem EPS_shape_general (obs pred tru : List (List ℚ))
    (W : Option (List ℚ)) (g : RNG) :
    (EmpiricalPosteriorSampling obs pred tru W g).1.length = obs.length ∧
    ∀ row ∈ (EmpiricalPosteriorSampling obs pred tru W g).1,
      row.length = numCols obs := by
  simp only [EmpiricalPosteriorSampling]
  apply ecdfLoop_shape
  · exact List.length_replicate _ _
  · intro row h
    rw [List.eq_of_mem_replicate h]
    exact List.length_replicate _ _

/-! ### Claims about `EmpiricalPosteriorSampling` -/

/-- C5: with consistent shapes (`ObservedPredictions` [QxP], test
matrices [NxP], tolerances of length P or omitted) and positive
dimensions, the returned matrix has exactly Q rows of P entries. -/
theorem EPS_output_shape (obs pred tru : List (List ℚ))
    (W : Option (List ℚ)) (g : RNG) (Q P N : Nat)
    (hQ : 0 < Q) (hP : 0 < P) (hN : 0 < N)
    (hobs : obs.length = Q) (hobsr : ∀ row ∈ obs, row.length = P)
    (hpred : pred.length = N) (hpredr : ∀ row ∈ pred, row.length = P)
    (htru : tru.length = N) (htrur : ∀ row ∈ tru, row.length = P)
    (hW : ∀ ws, W = some ws → ws.length = P) :
    (EmpiricalPosteriorSampling obs pred tru W g).1.length = Q ∧
    ∀ row ∈ (EmpiricalPosteriorSampling obs pred tru W g).1,
      row.length = P := by
  have hnc : numCols obs = P := by
    cases obs with
    | nil => rw [List.length_nil] at hobs; omega
    | cons r M => exact hobsr r (List.mem_cons_self _ _)
  obtain ⟨h1, h2⟩ := EPS_shape_general obs pred tru W g
  exact ⟨hobs ▸ h1, fun row h => hnc ▸ h2 row h⟩

/-- C5 instantiated at a concrete input. -/
theorem EPS_output_shape_witness :
    0 < 1 ∧
    (EmpiricalPosteriorSampling [[(1:ℚ)]] [[(2:ℚ)]] [[(3:ℚ)]] none
      ⟨fun _ => 0, 0⟩).1.length = 1 :=
  ⟨Nat.one_pos,
    (EPS_output_shape [[(1:ℚ)]] [[(2:ℚ)]] [[(3:ℚ)]] none ⟨fun _ => 0, 0⟩
      1 1 1 Nat.one_pos Nat.one_pos Nat.one_pos rfl (by simp) rfl
      (by simp) rfl (by simp) (fun ws h => by cases h)).1⟩

/-- C4 counterexample: `EmpiricalPosteriorSampling` performs no shape
validation.  With `ObservedPredictions = [[1,1]]` (parameter count 2) and
test matrices `[[2]]`, `[[3]]` (parameter count 1), the call does not
fail: it samples column 0 (the window around 1 with the default zero
tolerance misses 2, so the fallback draws 3 from the truth column) and
returns the full matrix `[[3, 0]]`. -/
theorem EPS_no_shape_check_cex :
    (EmpiricalPosteriorSampling [[(1:ℚ),1]] [[(2:ℚ)]] [[(3:ℚ)]] none
      ⟨fun _ => 0, 0⟩).1 = [[3, 0]] := by
  norm_num [EmpiricalPosteriorSampling, compute_default_tol, numCols,
    getCol, npMin, npMax, rangefraction, ecdfLoop, sample_ecdf,
    sample_ecdf_step, windowInds, setCol, RNG.next, List.filter,
    List.replicate, List.set]

/-- C4 amended: no ShapeMismatch condition exists.  When the two test
matrices agree in shape but carry strictly fewer parameter columns than
`ObservedPredictions`, the call completes without any error and returns a
matrix shaped like `ObservedPredictions` (only the columns covered by the
default tolerance vector are sampled). -/
theorem EPS_mismatch_completes (obs pred tru : List (List ℚ)) (g : RNG)
    (hP : numCols pred < numCols obs)
    (hpredr : ∀ row ∈ pred, row.length = numCols pred)
    (htrur : ∀ row ∈ tru, row.length = numCols pred)
    (hN : pred.length = tru.length) (hN0 : 0 < tru.length) :
    (EmpiricalPosteriorSampling obs pred tru none g).1.length =
      obs.length ∧
    ∀ row ∈ (EmpiricalPosteriorSampling obs pred tru none g).1,
      row.length = numCols obs :=
  EPS_shape_general obs pred tru none g

/-- C4 amended claim instantiated at the counterexample input. -/
theorem EPS_mismatch_completes_witness :
    numCols [[(2:ℚ)]] < numCols [[(1:ℚ),1]] ∧
    (EmpiricalPosteriorSampling [[(1:ℚ),1]] [[(2:ℚ)]] [[(3:ℚ)]] none
      ⟨fun _ => 0, 0⟩).1.length = [[(1:ℚ),1]].length :=
  ⟨by simp [numCols],
    (EPS_mismatch_completes [[(1:ℚ),1]] [[(2:ℚ)]] [[(3:ℚ)]]
      ⟨fun _ => 0, 0⟩ (by simp [numCols]) (by simp [numCols])
      (by simp [numCols]) rfl (by simp)).1⟩

/-- C10: a tolerance vector shorter than the parameter count raises no
error; only the first `len(Ws)` columns are sampled and every remaining
column of the returned [QxP] matrix is exactly the preallocated zeros. -/
theorem EPS_short_tolerance_zeros (obs pred tru : List (List ℚ))
    (ws : List ℚ) (g : RNG) (Q P : Nat)
    (hQ : obs.length = Q) (hobsr : ∀ row ∈ obs, row.length = P)
    (hnc : numCols obs = P) (hk : ws.length < P) :
    (EmpiricalPosteriorSampling obs pred tru (some ws) g).1.length = Q ∧
    (∀ row ∈ (EmpiricalPosteriorSampling obs pred tru (some ws) g).1,
      row.length = P) ∧
    ∀ j, ws.length ≤ j →
      getCol (EmpiricalPosteriorSampling obs pred tru (some ws) g).1 j =
        List.replicate Q (0:ℚ) := by
  obtain ⟨h1, h2⟩ := EPS_shape_general obs pred tru (some ws) g
  refine ⟨hQ ▸ h1, fun row h => hnc ▸ h2 row h, fun j hj => ?_⟩
  have hnotmem : j ∉ List.range ws.length := by
    rw [List.mem_range]; omega
  simp only [EmpiricalPosteriorSampling]
  rw [ecdfLoop_col_not_mem _ _ _ _ _ _ _ _ hnotmem
    (List.length_replicate _ _)]
  rw [getCol_replicate, hQ]

/-- C10 instantiated at a concrete input. -/
theorem EPS_short_tolerance_zeros_witness :
    (1:Nat) < 2 ∧
    getCol (EmpiricalPosteriorSampling [[(1:ℚ),2]] [[(1:ℚ),2]]
      [[(5:ℚ),6]] (some [0]) ⟨fun _ => 0, 0⟩).1 1 =
      List.replicate 1 (0:ℚ) :=
  ⟨by omega,
    (EPS_short_tolerance_zeros [[(1:ℚ),2]] [[(1:ℚ),2]] [[(5:ℚ),6]] [0]
      ⟨fun _ => 0, 0⟩ 1 2 rfl (by simp) (by simp [numCols])
      (by simp)).2.2 1 (by simp)⟩

/-! ### Column dependence on the random stream (C9) -/

theorem ecdfLoop_col_split (obs pred tru : List (List ℚ)) (Ws : List ℚ)
    (i : Nat) :
    ∀ (pre : List Nat) (post : List Nat) (acc : List (List ℚ)) (g : RNG),
      i ∉ pre → i ∉ post → acc.length = obs.length →
      (∀ row ∈ acc, i < row.length) →
      getCol (ecdfLoop obs pred tru Ws (pre ++ i :: post) acc g).1 i =
        (sample_ecdf (getCol obs i) (getCol pred i) (getCol tru i)
          (Ws.getD i 0) ⟨g.draws, g.pos + pre.length * obs.length⟩).1 := by
  intro pre
  induction pre with
  | nil =>
    intro post acc g _ hpost hacc hrow
    have hc : (sample_ecdf (getCol obs i) (getCol pred i) (getCol tru i)
        (Ws.getD i 0) g).1.length = obs.length := by
      rw [sample_ecdf_length]; simp [getCol]
    simp only [List.nil_append, ecdfLoop]
    rw [ecdfLoop_col_not_mem _ _ _ _ _ _ _ _ hpost
      (by rw [length_setCol _ _ _ (hc.trans hacc.symm)]; exact hacc)]
    rw [getCol_setCol_self _ _ _ (hc.trans hacc.symm) hrow]
    have hg : (⟨g.draws, g.pos + List.length ([] : List Nat) * obs.length⟩
        : RNG) = g := by
      cases g; simp
    rw [hg]
  | cons j pre ih =>
    intro post acc g hpre hpost hacc hrow
    have hji : i ≠ j := fun h => hpre (h ▸ List.mem_cons_self _ _)
    have hc : (sample_ecdf (getCol obs j) (getCol pred j) (getCol tru j)
        (Ws.getD j 0) g).1.length = obs.length := by
      rw [sample_ecdf_length]; simp [getCol]
    simp only [List.cons_append, ecdfLoop, List.append_eq]
    rw [sample_ecdf_rng]
    have hgl : (getCol obs j).length = obs.length := by simp [getCol]
    rw [hgl]
    rw [ih post _ _ (fun h => hpre (List.mem_cons_of_mem _ h)) hpost
      (by rw [length_setCol _ _ _ (hc.trans hacc.symm)]; exact hacc)
      (fun row h => by
        obtain ⟨row', hm, hl⟩ := setCol_mem_length _ _ _ row h
        rw [hl]; exact hrow row' hm)]
    have harg : (⟨g.draws, g.pos + obs.length + pre.length * obs.length⟩
        : RNG) =
        ⟨g.draws, g.pos + (j :: pre).length * obs.length⟩ := by
      simp only [List.length_cons, RNG.mk.injEq, true_and]
      ring
    rw [harg]

/-- C9 amended: the only cross-column coupling in
`EmpiricalPosteriorSampling` is the position of the shared sequential
random stream.  Column `i` of the output equals a single-parameter run of
`sample_ecdf` on column `i` of the inputs whose random stream is advanced
by exactly `i * Q` raw draws (one draw per observed realization in each
earlier column); it does not depend on the data of any other column. -/
theorem EPS_column_stream_indep (obs pred tru : List (List ℚ))
    (ws : List ℚ) (g : RNG) (i : Nat)
    (hi : i < ws.length) (hic : i < numCols obs) :
    getCol (EmpiricalPosteriorSampling obs pred tru (some ws) g).1 i =
      (sample_ecdf (getCol obs i) (getCol pred i) (getCol tru i)
        (ws.getD i 0) ⟨g.draws, g.pos + i * obs.length⟩).1 := by
  have hsplit : List.range ws.length =
      List.range i ++ i :: List.range' (i+1) (ws.length - i - 1) := by
    rw [List.range_eq_range' ws.length, List.range_eq_range' i]
    have h1 := List.range'_append 0 i (ws.length - i) 1
    have h2 : (ws.length - i) + i = ws.length := by omega
    rw [h2] at h1
    rw [← h1]
    congr 1
    have h3 : 0 + 1 * i = i := by omega
    have h4 : ws.length - i = (ws.length - i - 1) + 1 := by omega
    rw [h3, h4, List.range'_succ]
    have h5 : ws.length - i - 1 + 1 - 1 = ws.length - i - 1 := by omega
    rw [h5]
  simp only [EmpiricalPosteriorSampling]
  rw [hsplit]
  rw [ecdfLoop_col_split obs pred tru ws i (List.range i)
    (List.range' (i+1) (ws.length - i - 1)) _ g
    (by simp [List.mem_range])
    (by rw [List.mem_range'_1]; omega)
    (List.length_replicate _ _)
    (fun row h => by
      rw [List.eq_of_mem_replicate h, List.length_replicate]
      exact hic)]
  rw [List.length_range]

/-- C9 amended claim instantiated at a concrete input. -/
theorem EPS_column_stream_indep_witness :
    0 < 1 ∧
    getCol (EmpiricalPosteriorSampling [[(5:ℚ)]] [[(5:ℚ)]] [[(7:ℚ)]]
        (some [0]) ⟨fun _ => 0, 0⟩).1 0 =
      (sample_ecdf (getCol [[(5:ℚ)]] 0) (getCol [[(5:ℚ)]] 0)
        (getCol [[(7:ℚ)]] 0) ([(0:ℚ)].getD 0 0)
        ⟨fun _ => 0, 0 + 0 * [[(5:ℚ)]].length⟩).1 :=
  ⟨Nat.one_pos,
    EPS_column_stream_indep [[(5:ℚ)]] [[(5:ℚ)]] [[(7:ℚ)]] [0]
      ⟨fun _ => 0, 0⟩ 0 (by simp) (by simp [numCols])⟩

/-- C9 counterexample: under the shared sequential random stream of the
code, a single-parameter run on column 1 with the identically seeded
stream does not reproduce column 1 of the multi-parameter run: the
multi-parameter run gives `[4]` for column 1 (its draw comes after the
draw consumed by column 0), while the identically seeded
single-parameter run on the same column gives `[[3]]`. -/
theorem EPS_column_seed_cex :
    getCol (EmpiricalPosteriorSampling [[(0:ℚ),0]] [[(0:ℚ),0],[0,0]]
        [[(1:ℚ),3],[2,4]] (some [0,0]) ⟨fun k => k, 0⟩).1 1 = [4] ∧
    (EmpiricalPosteriorSampling [[(0:ℚ)]] [[(0:ℚ)],[0]] [[(3:ℚ)],[4]]
        (some [0]) ⟨fun k => k, 0⟩).1 = [[3]] ∧
    ([(4:ℚ)] : List ℚ) ≠ [3] := by
  refine ⟨?_, ?_, by simp⟩
  · norm_num [EmpiricalPosteriorSampling, getCol, ecdfLoop, sample_ecdf,
      sample_ecdf_step, windowInds, setCol, RNG.next, List.filter,
      List.replicate, List.set, numCols]
  · norm_num [EmpiricalPosteriorSampling, getCol, ecdfLoop, sample_ecdf,
      sample_ecdf_step, windowInds, setCol, RNG.next, List.filter,
      List.replicate, List.set, numCols]

end InvUQ
